import Mathlib

/-!
Verification development for the collaborative-canvas repository.

Server side (src/server/server.js): an append-only operation log with
server-assigned sequence numbers, a group table clustering stroke/erase
operations, two undo/redo stacks of group ids with lazy revalidation, a
unanimous-vote clear-all, and a connected-user registry with palette
colors.

Client side (src/client/canvas.js): a mirrored log and a deterministic
replay engine; rendering is modelled as the list of segment-draw commands
issued to the 2D context, which determines the raster output.

Conventions of the embedding:
- JS string ids (socket ids, crypto.randomUUID values) are modelled as
  natural numbers; fresh uuids are drawn from a monotone counter field.
- JS Maps are association lists in insertion order; Map.set replaces the
  first entry with the key or appends a new one, Map.get takes the first
  match, Map.delete removes the first match.
- JS array push/pop at the array end is modelled with the list head as the
  stack top (push is cons, pop is tail).
- Math.max(n - 1, 0) on a count is Nat subtraction, which is floored at 0.
-/

namespace CollabCanvas

/-- A 2D point (client pointer coordinates). -/
structure Pt where
  x : Int
  y : Int
deriving DecidableEq, Repr

/-- Brush descriptor carried on *-start operations: color, width, mode. -/
structure Brush where
  color : String
  width : Nat
  mode : String
deriving DecidableEq, Repr

/-- The closed operation-kind vocabulary of the protocol. -/
inductive Kind
  | strokeStart | strokePoint | strokeEnd
  | eraseStart | erasePoint | eraseEnd
  | systemClearAll
deriving DecidableEq, Repr

/-- JS test kind.endsWith(":start") on the closed vocabulary. -/
def Kind.endsWithStart : Kind → Bool
  | .strokeStart | .eraseStart => true
  | _ => false

/-- JS test kind.endsWith(":point") on the closed vocabulary. -/
def Kind.endsWithPoint : Kind → Bool
  | .strokePoint | .erasePoint => true
  | _ => false

/-- JS test kind.endsWith(":end") on the closed vocabulary. -/
def Kind.endsWithEnd : Kind → Bool
  | .strokeEnd | .eraseEnd => true
  | _ => false

/-- JS test kind.startsWith("erase:") on the closed vocabulary. -/
def Kind.startsWithErase : Kind → Bool
  | .eraseStart | .erasePoint | .eraseEnd => true
  | _ => false

/-- JS test kind.startsWith("stroke:") or kind.startsWith("erase:"). -/
def Kind.isStrokeOrErase : Kind → Bool
  | .systemClearAll => false
  | _ => true

/-- JS test kind === "system:clear_all". -/
def Kind.isClearAll : Kind → Bool
  | .systemClearAll => true
  | _ => false

/-- Operation payload. groupId is optional (absent models a JS falsy or
missing groupId); p and brush are optional fields of the loose JS object.
userId 0 models a missing or empty user id (falsy in JS). -/
structure OpData where
  userId : Nat
  groupId : Option Nat
  p : Option Pt
  brush : Option Brush
deriving DecidableEq, Repr

/-- A logged operation: server sequence number, unique identity, kind,
payload and tombstone flag. -/
structure Op where
  seq : Nat
  id : Nat
  kind : Kind
  data : OpData
  tombstone : Bool
deriving DecidableEq, Repr

/-- A group record: kind, owning user (JS field name: by), ordered member
sequence numbers, tombstone flag. -/
structure Group where
  kind : Kind
  owner : Nat
  seqs : List Nat
  tombstone : Bool
deriving DecidableEq, Repr

/-- JS Map.get: first entry with the key. -/
def amGet {α β : Type} [DecidableEq α] : List (α × β) → α → Option β
  | [], _ => none
  | (k, v) :: rest, k' => if k = k' then some v else amGet rest k'

/-- JS Map.set: replace the first entry with the key, else append. -/
def amSet {α β : Type} [DecidableEq α] : List (α × β) → α → β → List (α × β)
  | [], k, v => [(k, v)]
  | (k', v') :: rest, k, v =>
      if k' = k then (k, v) :: rest else (k', v') :: amSet rest k v

/-- JS Map.delete: remove the first entry with the key. -/
def amDel {α β : Type} [DecidableEq α] : List (α × β) → α → List (α × β)
  | [], _ => []
  | (k', v') :: rest, k => if k' = k then rest else (k', v') :: amDel rest k

/-- Server room state: sequence counter, fresh-uuid counter (modelling
crypto.randomUUID), the log, the group table, and the two stacks (head is
the stack top). -/
structure ServerState where
  seq : Nat
  uuid : Nat
  ops : List Op
  groups : List (Option Nat × Group)
  undoStack : List (Option Nat)
  redoStack : List (Option Nat)
deriving DecidableEq, Repr

/-- The operation record addOp builds: next sequence number, fresh id,
tombstone false. -/
def addOpNew (s : ServerState) (kind : Kind) (data : OpData) : Op :=
  { seq := s.seq + 1, id := s.uuid, kind := kind, data := data, tombstone := false }

/-- Server addOp: assign the next sequence number, append to the log, and
update the group table and stacks according to the kind (server.js 29-52). -/
def addOp (s : ServerState) (kind : Kind) (data : OpData) : Op × ServerState :=
  let op := addOpNew s kind data
  let s1 : ServerState :=
    { s with seq := s.seq + 1, uuid := s.uuid + 1, ops := s.ops ++ [op] }
  if kind.endsWithStart then
    let gNew : Group := { kind := kind, owner := data.userId, seqs := [op.seq], tombstone := false }
    (op, { s1 with groups := amSet s1.groups data.groupId gNew })
  else if kind.endsWithPoint then
    match amGet s1.groups data.groupId with
    | some g =>
        let gExt : Group := { g with seqs := g.seqs ++ [op.seq] }
        (op, { s1 with groups := amSet s1.groups data.groupId gExt })
    | none => (op, s1)
  else if kind.endsWithEnd then
    match amGet s1.groups data.groupId with
    | some g =>
        let gExt : Group := { g with seqs := g.seqs ++ [op.seq] }
        (op, { s1 with groups := amSet s1.groups data.groupId gExt,
                       undoStack := data.groupId :: s1.undoStack,
                       redoStack := [] })
    | none => (op, s1)
  else if kind.isClearAll then
    (op, { s1 with undoStack := [], redoStack := [] })
  else (op, s1)

/-- Set the tombstone of the first log entry with the given sequence number
(JS ops.find(x => x.seq === s)). -/
def setOpTombstone : List Op → Nat → Bool → List Op
  | [], _, _ => []
  | o :: rest, q, v =>
      if o.seq = q then { o with tombstone := v } :: rest
      else o :: setOpTombstone rest q v

/-- Set the tombstones of the log entries named by a list of sequence
numbers (the loop body of setGroupTombstone). -/
def setOpsTombstone (ops : List Op) (seqs : List Nat) (v : Bool) : List Op :=
  seqs.foldl (fun acc q => setOpTombstone acc q v) ops

/-- Server setGroupTombstone: flip the group tombstone and every member
operation tombstone together; false when the group is missing
(server.js 54-63). -/
def setGroupTombstone (s : ServerState) (gid : Option Nat) (v : Bool) : Bool × ServerState :=
  match amGet s.groups gid with
  | none => (false, s)
  | some g =>
      (true, { s with
        groups := amSet s.groups gid ({ g with tombstone := v }),
        ops := setOpsTombstone s.ops g.seqs v })

/-- The scan of the performUndo while loop: discard stack entries whose
group is missing or already tombstoned, returning the first valid group id
together with the remaining stack. -/
def findUndo (groups : List (Option Nat × Group)) :
    List (Option Nat) → Option (Option Nat × List (Option Nat))
  | [] => none
  | gid :: rest =>
      match amGet groups gid with
      | some g => if g.tombstone then findUndo groups rest else some (gid, rest)
      | none => findUndo groups rest

/-- The scan of the performRedo while loop: discard popped entries whose
group is missing or not tombstoned, returning the first redoable group id
together with the remaining stack. -/
def findRedo (groups : List (Option Nat × Group)) :
    List (Option Nat) → Option (Option Nat × List (Option Nat))
  | [] => none
  | gid :: rest =>
      match amGet groups gid with
      | some g => if g.tombstone then some (gid, rest) else findRedo groups rest
      | none => findRedo groups rest

/-- Server performUndo (server.js 65-80): pop until a live group is found,
tombstone it, move it to the redo stack; null when the stack is exhausted. -/
def performUndo (s : ServerState) : Option (Option Nat) × ServerState :=
  match findUndo s.groups s.undoStack with
  | none => (none, { s with undoStack := [] })
  | some (gid, rest) =>
      let s1 := (setGroupTombstone s gid true).2
      (some gid, { s1 with undoStack := rest, redoStack := gid :: s1.redoStack })

/-- Server performRedo (server.js 82-93): pop until a tombstoned group is
found, untombstone it, move it back to the undo stack. -/
def performRedo (s : ServerState) : Option (Option Nat) × ServerState :=
  match findRedo s.groups s.redoStack with
  | none => (none, { s with redoStack := [] })
  | some (gid, rest) =>
      let s1 := (setGroupTombstone s gid false).2
      (some gid, { s1 with redoStack := rest, undoStack := gid :: s1.undoStack })

/-- The payload of the system clear-all marker (JS object with by: vote). -/
def clearAllData : OpData :=
  { userId := 0, groupId := none, p := none, brush := none }

/-- Server finalizeClear (server.js 151-158): append the marker, tombstone
every group and every operation other than the marker. -/
def finalizeClear (s : ServerState) : Op × ServerState :=
  let r := addOp s .systemClearAll clearAllData
  (r.1, { r.2 with
    groups := r.2.groups.map (fun kg => (kg.1, { kg.2 with tombstone := true })),
    ops := r.2.ops.map (fun o => if o.id ≠ r.1.id then { o with tombstone := true } else o) })

/-- The client:op handler (server.js 116-122): mint a fresh group id when a
stroke/erase operation arrives without one, then append. -/
def handleClientOp (s : ServerState) (kind : Kind) (data : OpData) : Op × ServerState :=
  if kind.isStrokeOrErase ∧ data.groupId = none then
    addOp { s with uuid := s.uuid + 1 } kind { data with groupId := some s.uuid }
  else
    addOp s kind data

/-- The server mutations named by the log/undo claims: append, undo, redo,
clear-all finalize. -/
inductive SEvent
  | append (kind : Kind) (data : OpData)
  | undo
  | redo
  | clearAll
deriving DecidableEq, Repr

/-- One server mutation step. -/
def sstep (s : ServerState) : SEvent → ServerState
  | .append k d => (addOp s k d).2
  | .undo => (performUndo s).2
  | .redo => (performRedo s).2
  | .clearAll => (finalizeClear s).2

/-- An event that completes a stroke: an append of an end-kind operation,
the only event that can push onto the undo stack. -/
def SEvent.endsStroke : SEvent → Bool
  | .append k _ => k.endsWithEnd
  | _ => false

/-- The empty room: counters at zero, everything empty. -/
def server0 : ServerState :=
  { seq := 0, uuid := 0, ops := [], groups := [], undoStack := [], redoStack := [] }

/-- Run a sequence of server mutations from the empty room. -/
def runServer (evs : List SEvent) : ServerState := evs.foldl sstep server0

/-- Iterate addOp over a list of calls. -/
def addOps (s : ServerState) (calls : List (Kind × OpData)) : ServerState :=
  calls.foldl (fun a c => (addOp a c.1 c.2).2) s

/-- Tombstone alignment: every group tombstone equals the tombstone of each
logged operation whose sequence number is in the group member list. -/
def aligned (s : ServerState) : Prop :=
  ∀ kg ∈ s.groups, ∀ q ∈ kg.2.seqs, ∀ o ∈ s.ops, o.seq = q → o.tombstone = kg.2.tombstone

/-- Log sequence numbers are strictly increasing in log order. -/
def seqLT (s : ServerState) : Prop := (s.ops.map Op.seq).Chain' (· < ·)

/-- Every logged operation has sequence at most the counter and id below
the uuid counter. -/
def opsBound (s : ServerState) : Prop :=
  ∀ o ∈ s.ops, o.seq ≤ s.seq ∧ o.id < s.uuid

/-- Every group member sequence number is at most the counter. -/
def grpBound (s : ServerState) : Prop :=
  ∀ kg ∈ s.groups, ∀ q ∈ kg.2.seqs, q ≤ s.seq

/-- Every logged operation whose sequence is in a group member list carries
that group key in its payload. -/
def opOwner (s : ServerState) : Prop :=
  ∀ kg ∈ s.groups, ∀ q ∈ kg.2.seqs, ∀ o ∈ s.ops, o.seq = q → o.data.groupId = kg.1

/-- The group table has no duplicate keys. -/
def keysNodup (s : ServerState) : Prop := (s.groups.map Prod.fst).Nodup

/-- The reachable-state invariant bundle of the server. -/
structure Inv (s : ServerState) : Prop where
  hAligned : aligned s
  hSeq : seqLT s
  hOps : opsBound s
  hGrp : grpBound s
  hOwn : opOwner s
  hKeys : keysNodup s

/-- The side condition under which tombstone alignment is preserved: a
point or end operation may only target a group that is currently missing
or not tombstoned. -/
def okEventB (s : ServerState) : SEvent → Bool
  | .append k d =>
      if k.endsWithPoint || k.endsWithEnd then
        match amGet s.groups d.groupId with
        | some g => !g.tombstone
        | none => true
      else true
  | _ => true

/-- A trace is good when every step satisfies okEventB in the state where
it fires. -/
def goodTraceB : ServerState → List SEvent → Bool
  | _, [] => true
  | s, e :: rest => okEventB s e && goodTraceB (sstep s e) rest

/-- A segment-draw command issued to the 2D context; the raster output is
determined by the ordered list of these commands. -/
structure DrawCmd where
  comp : String
  style : String
  width : Nat
  p0 : Pt
  p1 : Pt
deriving DecidableEq, Repr

/-- Client drawSegment (canvas.js 46-64): nothing is drawn when either
endpoint is missing; eraser mode uses destination-out compositing. -/
def drawSegment (p0 p1 : Option Pt) (width : Nat) (color : String) (mode : String) :
    List DrawCmd :=
  match p0, p1 with
  | some a, some b =>
      if mode = "eraser" then
        [{ comp := "destination-out", style := "rgba(0,0,0,1)", width := width, p0 := a, p1 := b }]
      else
        [{ comp := "source-over", style := color, width := width, p0 := a, p1 := b }]
  | _, _ => []

/-- Client per-replay render state: per-user last point (the stored value
may itself be an absent point, as in JS), per-user brush, and the ordered
draw commands issued to the offscreen surface. -/
structure RenderState where
  lastSeg : List (Nat × Option Pt)
  currBrush : List (Nat × Brush)
  surface : List DrawCmd
deriving DecidableEq, Repr

/-- Client applyOpToContext (canvas.js 98-128): start caches last point and
brush, point draws one segment against the cached last point, end clears
the caches. -/
def applyOpToContext (st : RenderState) (op : Op) : RenderState :=
  let d := op.data
  let uid := d.userId
  let k := op.kind
  if uid = 0 then st
  else if k.endsWithStart then
    let mode := if k.startsWithErase then "eraser" else "brush"
    let b := d.brush.getD { color := "#222", width := 4, mode := mode }
    { st with lastSeg := amSet st.lastSeg uid d.p,
              currBrush := amSet st.currBrush uid
                ({ color := b.color, width := b.width, mode := mode }) }
  else if k.endsWithPoint then
    let p0 := (amGet st.lastSeg uid).join
    let p1 := d.p
    let brush := (amGet st.currBrush uid).getD
      { color := "#222", width := 4, mode := if k.startsWithErase then "eraser" else "brush" }
    { st with surface := st.surface ++ drawSegment p0 p1 brush.width brush.color brush.mode,
              lastSeg := amSet st.lastSeg uid p1 }
  else if k.endsWithEnd then
    { st with lastSeg := amDel st.lastSeg uid, currBrush := amDel st.currBrush uid }
  else st

/-- One step of fullReplay: tombstoned operations are skipped. -/
def replayStep (st : RenderState) (op : Op) : RenderState :=
  if op.tombstone then st else applyOpToContext st op

/-- The cleared surface with empty per-user caches. -/
def emptyRender : RenderState := { lastSeg := [], currBrush := [], surface := [] }

/-- Client fullReplay core (canvas.js 131-139): clear the surface and the
caches, then replay every non-tombstoned operation in log order. -/
def replayRender (log : List Op) : RenderState := log.foldl replayStep emptyRender

/-- Client mirror state: the mirrored log plus the render state. -/
structure ClientState where
  opLog : List Op
  render : RenderState
deriving DecidableEq, Repr

/-- Client fullReplay as a state transformer. -/
def fullReplay (c : ClientState) : ClientState :=
  { c with render := replayRender c.opLog }

/-- Client applyOp (canvas.js 150-160): push to the log; structural or
tombstoned operations trigger a full replay, otherwise the operation is
applied incrementally to the current surface. -/
def applyOp (c : ClientState) (op : Op) : ClientState :=
  let c1 : ClientState := { c with opLog := c.opLog ++ [op] }
  if op.tombstone || op.kind.isClearAll || op.kind.endsWithEnd then
    fullReplay c1
  else
    { c1 with render := applyOpToContext c1.render op }

/-- The client render state agrees with a from-scratch replay of its log. -/
def synced (c : ClientState) : Prop := c.render = replayRender c.opLog

/-- The fixed server color palette (server.js 23). -/
def COLORS : List String :=
  ["#f44336", "#3f51b5", "#009688", "#ff9800", "#9c27b0",
   "#03a9f4", "#8bc34a", "#795548", "#e91e63", "#00bcd4"]

/-- Server nextColor (server.js 24). -/
def nextColor (i : Nat) : String := COLORS.getD (i % COLORS.length) ""

/-- Clear-all vote state (server.js 27). -/
structure VoteState where
  inProgress : Bool
  yes : List Nat
  totalAtStart : Nat
deriving DecidableEq, Repr

/-- Whole-room state: server log state, connected users with their colors,
and the vote. -/
structure RoomState where
  srv : ServerState
  users : List (Nat × String)
  vote : VoteState
deriving DecidableEq, Repr

/-- JS Set.add on the yes set: no-op on duplicates. -/
def setAdd (l : List Nat) (x : Nat) : List Nat := if x ∈ l then l else l ++ [x]

/-- finalizeClear at room level: run the server finalize and reset the
in-progress flag (the yes set and snapshot are not reset). -/
def roomFinalizeClear (r : RoomState) : RoomState :=
  { r with srv := (finalizeClear r.srv).2,
           vote := { r.vote with inProgress := false } }

/-- Room-level events: the socket handlers of server.js. -/
inductive REvent
  | connect (uid : Nat)
  | disconnect (uid : Nat)
  | clientOp (kind : Kind) (data : OpData)
  | undoReq
  | redoReq
  | clearAllRequest (uid : Nat)
  | clearAllVote (uid : Nat) (yes : Bool)
deriving DecidableEq, Repr

/-- One room-level step, mirroring the connection, disconnect, client:op,
client:undo, client:redo, client:clear_all_request and
client:clear_all_vote handlers. -/
def rstep (r : RoomState) : REvent → RoomState
  | .connect uid =>
      { r with users := amSet r.users uid (nextColor r.users.length) }
  | .disconnect uid =>
      let r1 := { r with users := amDel r.users uid }
      if r1.vote.inProgress then
        let r2 := { r1 with vote := { r1.vote with totalAtStart := r1.vote.totalAtStart - 1 } }
        if r2.vote.totalAtStart ≤ r2.vote.yes.length then roomFinalizeClear r2 else r2
      else r1
  | .clientOp kind data =>
      { r with srv := (handleClientOp r.srv kind data).2 }
  | .undoReq => { r with srv := (performUndo r.srv).2 }
  | .redoReq => { r with srv := (performRedo r.srv).2 }
  | .clearAllRequest uid =>
      if r.vote.inProgress then r
      else
        let r1 := { r with vote := { inProgress := true, yes := [uid], totalAtStart := r.users.length } }
        if r1.vote.totalAtStart ≤ r1.vote.yes.length then roomFinalizeClear r1 else r1
  | .clearAllVote uid yes =>
      if r.vote.inProgress then
        let r1 := if yes then { r with vote := { r.vote with yes := setAdd r.vote.yes uid } } else r
        if r1.vote.totalAtStart ≤ r1.vote.yes.length then roomFinalizeClear r1 else r1
      else r

/-- The empty room at startup. -/
def room0 : RoomState :=
  { srv := server0, users := [], vote := { inProgress := false, yes := [], totalAtStart := 0 } }

/-- Run a sequence of room events from startup. -/
def runRoom (evs : List REvent) : RoomState := evs.foldl rstep room0

/-! ## Concrete scenarios used as witnesses and counterexamples -/

/-- A stroke payload: user 1 drawing in group 5. -/
def dG : OpData := { userId := 1, groupId := some 5, p := some { x := 0, y := 0 }, brush := none }

/-- A stroke payload with no group id (malformed client). -/
def dNoG : OpData := { userId := 1, groupId := none, p := some { x := 1, y := 2 }, brush := none }

/-- A trace in which a point for group 5 arrives after the group was undone:
start, end, undo, late point. -/
def traceC1 : List SEvent :=
  [.append .strokeStart dG, .append .strokeEnd dG, .undo, .append .strokePoint dG]

/-- A well-behaved trace: one full stroke, then an undo. -/
def traceOk : List SEvent :=
  [.append .strokeStart dG, .append .strokePoint dG, .append .strokeEnd dG, .undo]

/-- Server state holding one completed stroke (group 5, operations 1, 2). -/
def sStroke : ServerState := runServer [.append .strokeStart dG, .append .strokeEnd dG]

/-- Three users connect, user 1 requests clear-all and then disconnects
while the vote is pending. -/
def traceVote : List REvent :=
  [.connect 1, .connect 2, .connect 3, .clearAllRequest 1, .disconnect 1]

/-- The same trace continued: user 3 votes yes. -/
def traceVote2 : List REvent := traceVote ++ [.clearAllVote 3 true]

/-- User 1 joins and leaves, then user 2 joins. -/
def traceColor : List REvent := [.connect 1, .disconnect 1, .connect 2]

/-- A synced client with an empty mirrored log. -/
def cSync : ClientState := { opLog := [], render := emptyRender }

/-- A plain point-continuation operation for user 1, group 5. -/
def opPt : Op := { seq := 1, id := 0, kind := .strokePoint, data := dG, tombstone := false }

/-! ## Association-list (JS Map) lemmas -/

theorem amGet_amSet_self {α β : Type} [DecidableEq α] (m : List (α × β)) (k : α) (v : β) :
    amGet (amSet m k v) k = some v := by
  induction m with
  | nil => simp [amSet, amGet]
  | cons e rest ih =>
      obtain ⟨k', v'⟩ := e
      by_cases h : k' = k <;> simp [amSet, amGet, h, ih]

theorem amGet_amSet_ne {α β : Type} [DecidableEq α] (m : List (α × β)) (k k' : α) (v : β)
    (h : k' ≠ k) : amGet (amSet m k v) k' = amGet m k' := by
  induction m with
  | nil => simp [amSet, amGet, Ne.symm h]
  | cons e rest ih =>
      obtain ⟨ka, va⟩ := e
      by_cases hk : ka = k
      · subst hk
        simp [amSet, amGet, Ne.symm h]
      · simp [amSet, amGet, hk, ih]

theorem mem_amSet {α β : Type} [DecidableEq α] {m : List (α × β)} {k : α} {v : β}
    {e : α × β} (h : e ∈ amSet m k v) : e = (k, v) ∨ e ∈ m := by
  induction m with
  | nil => simpa [amSet] using h
  | cons a rest ih =>
      obtain ⟨ka, va⟩ := a
      by_cases hk : ka = k
      · rcases (by simpa [amSet, hk] using h : e = (k, v) ∨ e ∈ rest) with h1 | h1
        · exact Or.inl h1
        · exact Or.inr (List.mem_cons_of_mem _ h1)
      · rcases (by simpa [amSet, hk] using h : e = (ka, va) ∨ e ∈ amSet rest k v) with h1 | h1
        · exact Or.inr (by simp [h1])
        · rcases ih h1 with h2 | h2
          · exact Or.inl h2
          · exact Or.inr (List.mem_cons_of_mem _ h2)

theorem amGet_eq_some_mem {α β : Type} [DecidableEq α] {m : List (α × β)} {k : α} {v : β}
    (h : amGet m k = some v) : (k, v) ∈ m := by
  induction m with
  | nil => simp [amGet] at h
  | cons a rest ih =>
      obtain ⟨ka, va⟩ := a
      by_cases hk : ka = k
      · subst hk
        have hv : va = v := by simpa [amGet] using h
        simp [hv]
      · have h2 : amGet rest k = some v := by simpa [amGet, hk] using h
        exact List.mem_cons_of_mem _ (ih h2)

theorem amGet_eq_some_key_mem {α β : Type} [DecidableEq α] {m : List (α × β)} {k : α} {v : β}
    (h : amGet m k = some v) : k ∈ m.map Prod.fst := by
  have := amGet_eq_some_mem h
  exact List.mem_map.mpr ⟨(k, v), this, rfl⟩

theorem keys_amSet_mem {α β : Type} [DecidableEq α] {m : List (α × β)} {k : α} (v : β)
    (h : k ∈ m.map Prod.fst) : (amSet m k v).map Prod.fst = m.map Prod.fst := by
  induction m with
  | nil => simp at h
  | cons a rest ih =>
      obtain ⟨ka, va⟩ := a
      by_cases hk : ka = k
      · simp [amSet, hk]
      · have hr : k ∈ rest.map Prod.fst := by
          rw [List.map_cons] at h
          rcases List.mem_cons.mp h with h1 | h1
          · exact absurd h1.symm hk
          · exact h1
        simp [amSet, hk, ih hr]

theorem keys_amSet_not_mem {α β : Type} [DecidableEq α] {m : List (α × β)} {k : α} (v : β)
    (h : k ∉ m.map Prod.fst) : (amSet m k v).map Prod.fst = m.map Prod.fst ++ [k] := by
  induction m with
  | nil => simp [amSet]
  | cons a rest ih =>
      obtain ⟨ka, va⟩ := a
      have hk : ka ≠ k := by
        intro he
        exact h (by simp [he])
      have hr : k ∉ rest.map Prod.fst := fun hm => h (by simp [hm])
      simp [amSet, hk, ih hr]

theorem keysNodup_amSet {α β : Type} [DecidableEq α] {m : List (α × β)} {k : α} (v : β)
    (h : (m.map Prod.fst).Nodup) : ((amSet m k v).map Prod.fst).Nodup := by
  by_cases hk : k ∈ m.map Prod.fst
  · rw [keys_amSet_mem v hk]; exact h
  · rw [keys_amSet_not_mem v hk, List.nodup_append]
    refine ⟨h, List.nodup_singleton k, ?_⟩
    intro a ha hb
    have hak : a = k := by simpa using hb
    exact hk (hak ▸ ha)

theorem mem_amSet_key {α β : Type} [DecidableEq α] {m : List (α × β)} {k : α} {v : β}
    {e : α × β} (hnd : (m.map Prod.fst).Nodup) (h : e ∈ amSet m k v) (hk : e.1 = k) :
    e = (k, v) := by
  induction m with
  | nil =>
      simpa [amSet] using h
  | cons a rest ih =>
      obtain ⟨ka, va⟩ := a
      rw [List.map_cons, List.nodup_cons] at hnd
      by_cases hka : ka = k
      · subst hka
        have h2 : e = (ka, v) ∨ e ∈ rest := by simpa [amSet] using h
        rcases h2 with h1 | h1
        · exact h1
        · exfalso
          have hmem : e.1 ∈ rest.map Prod.fst := List.mem_map.mpr ⟨e, h1, rfl⟩
          rw [hk] at hmem
          exact hnd.1 hmem
      · have h2 : e = (ka, va) ∨ e ∈ amSet rest k v := by simpa [amSet, hka] using h
        rcases h2 with h1 | h1
        · exfalso
          exact hka (by rw [← hk, h1])
        · exact ih hnd.2 h1

theorem amSet_self {α β : Type} [DecidableEq α] {m : List (α × β)} {k : α} {v : β}
    (h : amGet m k = some v) : amSet m k v = m := by
  induction m with
  | nil => simp [amGet] at h
  | cons a rest ih =>
      obtain ⟨ka, va⟩ := a
      by_cases hk : ka = k
      · subst hk
        have hv : va = v := by simpa [amGet] using h
        simp [amSet, hv]
      · have h2 : amGet rest k = some v := by simpa [amGet, hk] using h
        simp [amSet, hk, ih h2]

theorem amSet_amSet {α β : Type} [DecidableEq α] (m : List (α × β)) (k : α) (a b : β) :
    amSet (amSet m k a) k b = amSet m k b := by
  induction m with
  | nil => simp [amSet]
  | cons e rest ih =>
      obtain ⟨ka, va⟩ := e
      by_cases hk : ka = k <;> simp [amSet, hk, ih]

/-! ## Tombstone-update lemmas -/

theorem setOpTombstone_map_seq (ops : List Op) (q : Nat) (v : Bool) :
    (setOpTombstone ops q v).map Op.seq = ops.map Op.seq := by
  induction ops with
  | nil => simp [setOpTombstone]
  | cons o rest ih =>
      by_cases h : o.seq = q <;> simp [setOpTombstone, h, ih]

theorem setOpTombstone_eq_map {ops : List Op} (h : (ops.map Op.seq).Nodup) (q : Nat) (v : Bool) :
    setOpTombstone ops q v =
      ops.map (fun o => if o.seq = q then { o with tombstone := v } else o) := by
  induction ops with
  | nil => simp [setOpTombstone]
  | cons o rest ih =>
      rw [List.map_cons, List.nodup_cons] at h
      have hno : o.seq ∉ rest.map Op.seq := h.1
      have hnd : (rest.map Op.seq).Nodup := h.2
      by_cases ho : o.seq = q
      · subst ho
        have : ∀ o' ∈ rest, (if o'.seq = o.seq then { o' with tombstone := v } else o') = o' := by
          intro o' ho'
          have : o'.seq ≠ o.seq := fun he => hno (he ▸ List.mem_map.mpr ⟨o', ho', rfl⟩)
          simp [this]
        simp [setOpTombstone, List.map_congr_left this]
      · simp [setOpTombstone, ho, ih hnd]

theorem setOpsTombstone_eq_map (seqs : List Nat) :
    ∀ (ops : List Op), (ops.map Op.seq).Nodup → ∀ v,
      setOpsTombstone ops seqs v =
        ops.map (fun o => if o.seq ∈ seqs then { o with tombstone := v } else o) := by
  induction seqs with
  | nil =>
      intro ops _ v
      simp [setOpsTombstone]
  | cons q qs ih =>
      intro ops hnd v
      have h1 : setOpsTombstone ops (q :: qs) v = setOpsTombstone (setOpTombstone ops q v) qs v := rfl
      rw [h1, ih (setOpTombstone ops q v) (by rw [setOpTombstone_map_seq]; exact hnd) v,
        setOpTombstone_eq_map hnd q v, List.map_map]
      refine List.map_congr_left ?_
      intro o _
      by_cases hq : o.seq = q <;> by_cases hqs : o.seq ∈ qs <;>
        simp [Function.comp, hq, hqs]

theorem setOpsTombstone_map_seq (ops : List Op) (seqs : List Nat) (v : Bool) :
    (setOpsTombstone ops seqs v).map Op.seq = ops.map Op.seq := by
  induction seqs generalizing ops with
  | nil => simp [setOpsTombstone]
  | cons q qs ih =>
      have h1 : setOpsTombstone ops (q :: qs) v = setOpsTombstone (setOpTombstone ops q v) qs v := rfl
      rw [h1, ih, setOpTombstone_map_seq]

theorem op_set_tombstone_eq {o : Op} {v : Bool} (h : o.tombstone = v) :
    ({ o with tombstone := v } : Op) = o := by
  cases o
  simp at h
  simp [h]

theorem setOpsTombstone_true_false {ops : List Op} {seqs : List Nat}
    (hnd : (ops.map Op.seq).Nodup)
    (hall : ∀ o ∈ ops, o.seq ∈ seqs → o.tombstone = false) :
    setOpsTombstone (setOpsTombstone ops seqs true) seqs false = ops := by
  have hseq : ((ops.map (fun o => if o.seq ∈ seqs then { o with tombstone := true } else o)).map
      Op.seq).Nodup := by
    rw [List.map_map]
    have he : ops.map (Op.seq ∘ fun o => if o.seq ∈ seqs then { o with tombstone := true } else o)
        = ops.map Op.seq := by
      refine List.map_congr_left ?_
      intro o _
      by_cases hq : o.seq ∈ seqs <;> simp [Function.comp, hq]
    rw [he]
    exact hnd
  rw [setOpsTombstone_eq_map seqs ops hnd true, setOpsTombstone_eq_map seqs _ hseq false,
    List.map_map]
  have hpt : ∀ o ∈ ops,
      ((fun o => if o.seq ∈ seqs then { o with tombstone := false } else o) ∘
        (fun o => if o.seq ∈ seqs then { o with tombstone := true } else o)) o = id o := by
    intro o ho
    by_cases hq : o.seq ∈ seqs
    · simp [Function.comp, hq, op_set_tombstone_eq (hall o ho hq)]
    · simp [Function.comp, hq]
  rw [List.map_congr_left hpt, List.map_id]

/-! ## Chain helper -/

theorem chainLT_append_singleton {l : List Nat} {n : Nat}
    (h : l.Chain' (· < ·)) (hb : ∀ x ∈ l, x < n) : (l ++ [n]).Chain' (· < ·) := by
  rw [List.chain'_append]
  refine ⟨h, List.chain'_singleton n, ?_⟩
  intro x hx y hy
  obtain rfl : n = y := by simpa using hy
  obtain ⟨hne, hxe⟩ := List.mem_getLast?_eq_getLast hx
  exact hxe ▸ hb _ (List.getLast_mem hne)

/-! ## Characterization of the server operations -/

theorem findUndo_eq_some {groups : List (Option Nat × Group)} :
    ∀ {stack gid rest}, findUndo groups stack = some (gid, rest) →
      ∃ g, amGet groups gid = some g ∧ g.tombstone = false := by
  intro stack
  induction stack with
  | nil => intro gid rest h; simp [findUndo] at h
  | cons a tl ih =>
      intro gid rest h
      cases hg : amGet groups a with
      | none =>
          simp only [findUndo, hg] at h
          exact ih h
      | some g =>
          simp only [findUndo, hg] at h
          by_cases ht : g.tombstone
          · rw [if_pos ht] at h
            exact ih h
          · rw [if_neg ht] at h
            obtain ⟨rfl, rfl⟩ : a = gid ∧ tl = rest := by simpa using h
            exact ⟨g, hg, by simpa using ht⟩

theorem findRedo_eq_some {groups : List (Option Nat × Group)} :
    ∀ {stack gid rest}, findRedo groups stack = some (gid, rest) →
      ∃ g, amGet groups gid = some g ∧ g.tombstone = true := by
  intro stack
  induction stack with
  | nil => intro gid rest h; simp [findRedo] at h
  | cons a tl ih =>
      intro gid rest h
      cases hg : amGet groups a with
      | none =>
          simp only [findRedo, hg] at h
          exact ih h
      | some g =>
          simp only [findRedo, hg] at h
          by_cases ht : g.tombstone
          · rw [if_pos ht] at h
            obtain ⟨rfl, rfl⟩ : a = gid ∧ tl = rest := by simpa using h
            exact ⟨g, hg, ht⟩
          · rw [if_neg ht] at h
            exact ih h

theorem setGroupTombstone_eq {s : ServerState} {gid : Option Nat} {g : Group} (v : Bool)
    (hg : amGet s.groups gid = some g) :
    (setGroupTombstone s gid v).2 =
      { s with groups := amSet s.groups gid ({ g with tombstone := v }),
               ops := setOpsTombstone s.ops g.seqs v } := by
  simp [setGroupTombstone, hg]

theorem performUndo_eq_some {s : ServerState} {gid : Option Nat} {s1 : ServerState}
    (h : performUndo s = (some gid, s1)) :
    ∃ rest, findUndo s.groups s.undoStack = some (gid, rest) ∧
      s1 = { (setGroupTombstone s gid true).2 with
               undoStack := rest,
               redoStack := gid :: (setGroupTombstone s gid true).2.redoStack } := by
  cases hf : findUndo s.groups s.undoStack with
  | none =>
      exfalso
      rw [performUndo, hf] at h
      simp at h
  | some p =>
      obtain ⟨gid', rest⟩ := p
      rw [performUndo, hf] at h
      obtain ⟨h1, h2⟩ := Prod.mk.injEq .. ▸ h
      obtain rfl : gid' = gid := by simpa using h1
      exact ⟨rest, rfl, h2.symm⟩

theorem performRedo_eq_some {s : ServerState} {gid : Option Nat} {s1 : ServerState}
    (h : performRedo s = (some gid, s1)) :
    ∃ rest, findRedo s.groups s.redoStack = some (gid, rest) ∧
      s1 = { (setGroupTombstone s gid false).2 with
               redoStack := rest,
               undoStack := gid :: (setGroupTombstone s gid false).2.undoStack } := by
  cases hf : findRedo s.groups s.redoStack with
  | none =>
      exfalso
      rw [performRedo, hf] at h
      simp at h
  | some p =>
      obtain ⟨gid', rest⟩ := p
      rw [performRedo, hf] at h
      obtain ⟨h1, h2⟩ := Prod.mk.injEq .. ▸ h
      obtain rfl : gid' = gid := by simpa using h1
      exact ⟨rest, rfl, h2.symm⟩

theorem addOp_fst (s : ServerState) (k : Kind) (d : OpData) :
    (addOp s k d).1 = addOpNew s k d := by
  cases k <;> cases hmg : amGet s.groups d.groupId <;>
    simp [addOp, Kind.endsWithStart, Kind.endsWithPoint, Kind.endsWithEnd, Kind.isClearAll, hmg]

theorem addOp_core (s : ServerState) (k : Kind) (d : OpData) :
    (addOp s k d).2.ops = s.ops ++ [addOpNew s k d] ∧
    (addOp s k d).2.seq = s.seq + 1 ∧
    (addOp s k d).2.uuid = s.uuid + 1 := by
  cases k <;> cases hmg : amGet s.groups d.groupId <;>
    simp [addOp, Kind.endsWithStart, Kind.endsWithPoint, Kind.endsWithEnd, Kind.isClearAll, hmg]

/-! ## Preservation of the server invariants -/

theorem ite_set_tombstone_seq (c : Prop) [Decidable c] (o : Op) (v : Bool) :
    (if c then ({ o with tombstone := v } : Op) else o).seq = o.seq := by
  by_cases h : c <;> simp [h]

theorem ite_set_tombstone_id (c : Prop) [Decidable c] (o : Op) (v : Bool) :
    (if c then ({ o with tombstone := v } : Op) else o).id = o.id := by
  by_cases h : c <;> simp [h]

theorem ite_set_tombstone_data (c : Prop) [Decidable c] (o : Op) (v : Bool) :
    (if c then ({ o with tombstone := v } : Op) else o).data = o.data := by
  by_cases h : c <;> simp [h]

theorem inv_of_core {s t : ServerState} (hInv : Inv s)
    (hseq : t.seq = s.seq) (huuid : t.uuid = s.uuid)
    (hops : t.ops = s.ops) (hgroups : t.groups = s.groups) : Inv t := by
  obtain ⟨hA, hS, hO, hG, hW, hK⟩ := hInv
  refine ⟨?_, ?_, ?_, ?_, ?_, ?_⟩
  · intro kg hkg q hq o ho hs
    exact hA kg (hgroups ▸ hkg) q hq o (hops ▸ ho) hs
  · unfold seqLT
    rw [hops]
    exact hS
  · intro o ho
    rw [hseq, huuid]
    exact hO o (hops ▸ ho)
  · intro kg hkg q hq
    rw [hseq]
    exact hG kg (hgroups ▸ hkg) q hq
  · intro kg hkg q hq o ho hs
    exact hW kg (hgroups ▸ hkg) q hq o (hops ▸ ho) hs
  · unfold keysNodup
    rw [hgroups]
    exact hK

theorem seqLT_append {s : ServerState} (hS : seqLT s) (hO : opsBound s) (k : Kind) (d : OpData) :
    ((s.ops ++ [addOpNew s k d]).map Op.seq).Chain' (· < ·) := by
  rw [List.map_append]
  have hone : [addOpNew s k d].map Op.seq = [s.seq + 1] := by simp [addOpNew]
  rw [hone]
  refine chainLT_append_singleton hS ?_
  intro x hx
  obtain ⟨o, ho, rfl⟩ := List.mem_map.mp hx
  have := (hO o ho).1
  omega

theorem opsBound_append {s : ServerState} (hO : opsBound s) (k : Kind) (d : OpData) :
    ∀ o ∈ s.ops ++ [addOpNew s k d], o.seq ≤ s.seq + 1 ∧ o.id < s.uuid + 1 := by
  intro o ho
  rcases List.mem_append.mp ho with ho1 | ho1
  · obtain ⟨h1, h2⟩ := hO o ho1
    exact ⟨by omega, by omega⟩
  · obtain rfl : o = addOpNew s k d := by simpa using ho1
    refine ⟨?_, ?_⟩ <;> simp [addOpNew]

theorem inv_plain_core {s : ServerState} (hInv : Inv s) (k : Kind) (d : OpData)
    (us rs : List (Option Nat)) :
    Inv { s with seq := s.seq + 1, uuid := s.uuid + 1, ops := s.ops ++ [addOpNew s k d],
                 undoStack := us, redoStack := rs } := by
  obtain ⟨hA, hS, hO, hG, hW, hK⟩ := hInv
  refine ⟨?_, seqLT_append hS hO k d, opsBound_append hO k d, ?_, ?_, hK⟩
  · intro kg hkg q hq o ho hs
    rcases List.mem_append.mp ho with ho1 | ho1
    · exact hA kg hkg q hq o ho1 hs
    · obtain rfl : o = addOpNew s k d := by simpa using ho1
      exfalso
      have h1 : q ≤ s.seq := hG kg hkg q hq
      simp [addOpNew] at hs
      omega
  · intro kg hkg q hq
    exact Nat.le_succ_of_le (hG kg hkg q hq)
  · intro kg hkg q hq o ho hs
    rcases List.mem_append.mp ho with ho1 | ho1
    · exact hW kg hkg q hq o ho1 hs
    · obtain rfl : o = addOpNew s k d := by simpa using ho1
      exfalso
      have h1 : q ≤ s.seq := hG kg hkg q hq
      simp [addOpNew] at hs
      omega

theorem inv_start_core {s : ServerState} (hInv : Inv s) (k : Kind) (d : OpData) :
    Inv { s with seq := s.seq + 1, uuid := s.uuid + 1, ops := s.ops ++ [addOpNew s k d],
                 groups := amSet s.groups d.groupId
                   ({ kind := k, owner := d.userId,
                      seqs := [(addOpNew s k d).seq], tombstone := false }) } := by
  obtain ⟨hA, hS, hO, hG, hW, hK⟩ := hInv
  refine ⟨?_, seqLT_append hS hO k d, opsBound_append hO k d, ?_, ?_, keysNodup_amSet _ hK⟩
  · intro kg hkg q hq o ho hs
    rcases mem_amSet hkg with rfl | hold
    · have hq' : q = s.seq + 1 := by simpa [addOpNew] using hq
      rcases List.mem_append.mp ho with ho1 | ho1
      · exfalso
        have := (hO o ho1).1
        omega
      · obtain rfl : o = addOpNew s k d := by simpa using ho1
        rfl
    · rcases List.mem_append.mp ho with ho1 | ho1
      · exact hA kg hold q hq o ho1 hs
      · obtain rfl : o = addOpNew s k d := by simpa using ho1
        exfalso
        have h1 : q ≤ s.seq := hG kg hold q hq
        simp [addOpNew] at hs
        omega
  · intro kg hkg q hq
    rcases mem_amSet hkg with rfl | hold
    · have hq' : q = s.seq + 1 := by simpa [addOpNew] using hq
      show q ≤ s.seq + 1
      omega
    · exact Nat.le_succ_of_le (hG kg hold q hq)
  · intro kg hkg q hq o ho hs
    rcases mem_amSet hkg with rfl | hold
    · rcases List.mem_append.mp ho with ho1 | ho1
      · exfalso
        have hq' : q = s.seq + 1 := by simpa [addOpNew] using hq
        have := (hO o ho1).1
        omega
      · obtain rfl : o = addOpNew s k d := by simpa using ho1
        simp [addOpNew]
    · rcases List.mem_append.mp ho with ho1 | ho1
      · exact hW kg hold q hq o ho1 hs
      · obtain rfl : o = addOpNew s k d := by simpa using ho1
        exfalso
        have h1 : q ≤ s.seq := hG kg hold q hq
        simp [addOpNew] at hs
        omega

theorem inv_ext_core {s : ServerState} (hInv : Inv s) {d : OpData} {g : Group}
    (k : Kind) (hmg : amGet s.groups d.groupId = some g) (hgt : g.tombstone = false)
    (us rs : List (Option Nat)) :
    Inv { s with seq := s.seq + 1, uuid := s.uuid + 1, ops := s.ops ++ [addOpNew s k d],
                 groups := amSet s.groups d.groupId
                   ({ g with seqs := g.seqs ++ [(addOpNew s k d).seq] }),
                 undoStack := us, redoStack := rs } := by
  obtain ⟨hA, hS, hO, hG, hW, hK⟩ := hInv
  have hgmem : (d.groupId, g) ∈ s.groups := amGet_eq_some_mem hmg
  refine ⟨?_, seqLT_append hS hO k d, opsBound_append hO k d, ?_, ?_, keysNodup_amSet _ hK⟩
  · intro kg hkg q hq o ho hs
    rcases mem_amSet hkg with rfl | hold
    · rcases List.mem_append.mp hq with hq1 | hq1
      · rcases List.mem_append.mp ho with ho1 | ho1
        · exact hA (d.groupId, g) hgmem q hq1 o ho1 hs
        · obtain rfl : o = addOpNew s k d := by simpa using ho1
          exfalso
          have h1 : q ≤ s.seq := hG _ hgmem q hq1
          simp [addOpNew] at hs
          omega
      · have hq' : q = s.seq + 1 := by simpa [addOpNew] using hq1
        rcases List.mem_append.mp ho with ho1 | ho1
        · exfalso
          have := (hO o ho1).1
          omega
        · obtain rfl : o = addOpNew s k d := by simpa using ho1
          simpa [addOpNew] using hgt.symm
    · rcases List.mem_append.mp ho with ho1 | ho1
      · exact hA kg hold q hq o ho1 hs
      · obtain rfl : o = addOpNew s k d := by simpa using ho1
        exfalso
        have h1 : q ≤ s.seq := hG kg hold q hq
        simp [addOpNew] at hs
        omega
  · intro kg hkg q hq
    rcases mem_amSet hkg with rfl | hold
    · rcases List.mem_append.mp hq with hq1 | hq1
      · exact Nat.le_succ_of_le (hG _ hgmem q hq1)
      · have hq' : q = s.seq + 1 := by simpa [addOpNew] using hq1
        show q ≤ s.seq + 1
        omega
    · exact Nat.le_succ_of_le (hG kg hold q hq)
  · intro kg hkg q hq o ho hs
    rcases mem_amSet hkg with rfl | hold
    · rcases List.mem_append.mp ho with ho1 | ho1
      · rcases List.mem_append.mp hq with hq1 | hq1
        · exact hW _ hgmem q hq1 o ho1 hs
        · exfalso
          have hq' : q = s.seq + 1 := by simpa [addOpNew] using hq1
          have := (hO o ho1).1
          omega
      · obtain rfl : o = addOpNew s k d := by simpa using ho1
        simp [addOpNew]
    · rcases List.mem_append.mp ho with ho1 | ho1
      · exact hW kg hold q hq o ho1 hs
      · obtain rfl : o = addOpNew s k d := by simpa using ho1
        exfalso
        have h1 : q ≤ s.seq := hG kg hold q hq
        simp [addOpNew] at hs
        omega

theorem inv_addOp {s : ServerState} (hInv : Inv s) (k : Kind) (d : OpData)
    (hok : ∀ g, amGet s.groups d.groupId = some g →
      (k.endsWithPoint || k.endsWithEnd) = true → g.tombstone = false) :
    Inv (addOp s k d).2 := by
  cases k with
  | strokeStart =>
      have he : (addOp s .strokeStart d).2 =
          { s with seq := s.seq + 1, uuid := s.uuid + 1,
                   ops := s.ops ++ [addOpNew s .strokeStart d],
                   groups := amSet s.groups d.groupId
                     ({ kind := .strokeStart, owner := d.userId,
                        seqs := [(addOpNew s .strokeStart d).seq], tombstone := false }) } := by
        simp [addOp, Kind.endsWithStart]
      rw [he]
      exact inv_start_core hInv _ d
  | eraseStart =>
      have he : (addOp s .eraseStart d).2 =
          { s with seq := s.seq + 1, uuid := s.uuid + 1,
                   ops := s.ops ++ [addOpNew s .eraseStart d],
                   groups := amSet s.groups d.groupId
                     ({ kind := .eraseStart, owner := d.userId,
                        seqs := [(addOpNew s .eraseStart d).seq], tombstone := false }) } := by
        simp [addOp, Kind.endsWithStart]
      rw [he]
      exact inv_start_core hInv _ d
  | strokePoint =>
      cases hmg : amGet s.groups d.groupId with
      | none =>
          have he : (addOp s .strokePoint d).2 =
              { s with seq := s.seq + 1, uuid := s.uuid + 1,
                       ops := s.ops ++ [addOpNew s .strokePoint d] } := by
            simp [addOp, Kind.endsWithStart, Kind.endsWithPoint, hmg]
          rw [he]
          exact inv_plain_core hInv _ d s.undoStack s.redoStack
      | some g =>
          have hgt : g.tombstone = false := hok g hmg (by simp [Kind.endsWithPoint])
          have he : (addOp s .strokePoint d).2 =
              { s with seq := s.seq + 1, uuid := s.uuid + 1,
                       ops := s.ops ++ [addOpNew s .strokePoint d],
                       groups := amSet s.groups d.groupId
                         ({ g with seqs := g.seqs ++ [(addOpNew s .strokePoint d).seq] }) } := by
            simp [addOp, Kind.endsWithStart, Kind.endsWithPoint, hmg]
          rw [he]
          exact inv_ext_core hInv _ hmg hgt s.undoStack s.redoStack
  | erasePoint =>
      cases hmg : amGet s.groups d.groupId with
      | none =>
          have he : (addOp s .erasePoint d).2 =
              { s with seq := s.seq + 1, uuid := s.uuid + 1,
                       ops := s.ops ++ [addOpNew s .erasePoint d] } := by
            simp [addOp, Kind.endsWithStart, Kind.endsWithPoint, hmg]
          rw [he]
          exact inv_plain_core hInv _ d s.undoStack s.redoStack
      | some g =>
          have hgt : g.tombstone = false := hok g hmg (by simp [Kind.endsWithPoint])
          have he : (addOp s .erasePoint d).2 =
              { s with seq := s.seq + 1, uuid := s.uuid + 1,
                       ops := s.ops ++ [addOpNew s .erasePoint d],
                       groups := amSet s.groups d.groupId
                         ({ g with seqs := g.seqs ++ [(addOpNew s .erasePoint d).seq] }) } := by
            simp [addOp, Kind.endsWithStart, Kind.endsWithPoint, hmg]
          rw [he]
          exact inv_ext_core hInv _ hmg hgt s.undoStack s.redoStack
  | strokeEnd =>
      cases hmg : amGet s.groups d.groupId with
      | none =>
          have he : (addOp s .strokeEnd d).2 =
              { s with seq := s.seq + 1, uuid := s.uuid + 1,
                       ops := s.ops ++ [addOpNew s .strokeEnd d] } := by
            simp [addOp, Kind.endsWithStart, Kind.endsWithPoint, Kind.endsWithEnd, hmg]
          rw [he]
          exact inv_plain_core hInv _ d s.undoStack s.redoStack
      | some g =>
          have hgt : g.tombstone = false := hok g hmg (by simp [Kind.endsWithEnd])
          have he : (addOp s .strokeEnd d).2 =
              { s with seq := s.seq + 1, uuid := s.uuid + 1,
                       ops := s.ops ++ [addOpNew s .strokeEnd d],
                       groups := amSet s.groups d.groupId
                         ({ g with seqs := g.seqs ++ [(addOpNew s .strokeEnd d).seq] }),
                       undoStack := d.groupId :: s.undoStack, redoStack := [] } := by
            simp [addOp, Kind.endsWithStart, Kind.endsWithPoint, Kind.endsWithEnd, hmg]
          rw [he]
          exact inv_ext_core hInv _ hmg hgt (d.groupId :: s.undoStack) []
  | eraseEnd =>
      cases hmg : amGet s.groups d.groupId with
      | none =>
          have he : (addOp s .eraseEnd d).2 =
              { s with seq := s.seq + 1, uuid := s.uuid + 1,
                       ops := s.ops ++ [addOpNew s .eraseEnd d] } := by
            simp [addOp, Kind.endsWithStart, Kind.endsWithPoint, Kind.endsWithEnd, hmg]
          rw [he]
          exact inv_plain_core hInv _ d s.undoStack s.redoStack
      | some g =>
          have hgt : g.tombstone = false := hok g hmg (by simp [Kind.endsWithEnd])
          have he : (addOp s .eraseEnd d).2 =
              { s with seq := s.seq + 1, uuid := s.uuid + 1,
                       ops := s.ops ++ [addOpNew s .eraseEnd d],
                       groups := amSet s.groups d.groupId
                         ({ g with seqs := g.seqs ++ [(addOpNew s .eraseEnd d).seq] }),
                       undoStack := d.groupId :: s.undoStack, redoStack := [] } := by
            simp [addOp, Kind.endsWithStart, Kind.endsWithPoint, Kind.endsWithEnd, hmg]
          rw [he]
          exact inv_ext_core hInv _ hmg hgt (d.groupId :: s.undoStack) []
  | systemClearAll =>
      have he : (addOp s .systemClearAll d).2 =
          { s with seq := s.seq + 1, uuid := s.uuid + 1,
                   ops := s.ops ++ [addOpNew s .systemClearAll d],
                   undoStack := [], redoStack := [] } := by
        simp [addOp, Kind.endsWithStart, Kind.endsWithPoint, Kind.endsWithEnd, Kind.isClearAll]
      rw [he]
      exact inv_plain_core hInv _ d [] []

theorem seqLT_nodup {s : ServerState} (hS : seqLT s) : (s.ops.map Op.seq).Nodup :=
  (List.chain'_iff_pairwise.mp hS).nodup

theorem inv_setGroupTombstone {s : ServerState} (hInv : Inv s) {gid : Option Nat} {g : Group}
    (v : Bool) (hmg : amGet s.groups gid = some g) :
    Inv (setGroupTombstone s gid v).2 := by
  obtain ⟨hA, hS, hO, hG, hW, hK⟩ := hInv
  have hnd : (s.ops.map Op.seq).Nodup := seqLT_nodup hS
  have hgmem : (gid, g) ∈ s.groups := amGet_eq_some_mem hmg
  rw [setGroupTombstone_eq v hmg]
  have hops : setOpsTombstone s.ops g.seqs v =
      s.ops.map (fun o => if o.seq ∈ g.seqs then { o with tombstone := v } else o) :=
    setOpsTombstone_eq_map g.seqs s.ops hnd v
  refine ⟨?_, ?_, ?_, ?_, ?_, ?_⟩
  · intro kg hkg q hq o ho hs
    have ho2 : o ∈ setOpsTombstone s.ops g.seqs v := ho
    rw [hops] at ho2
    obtain ⟨o0, ho0, rfl⟩ := List.mem_map.mp ho2
    have hseq0 : o0.seq = q := by
      rw [← hs]
      exact (ite_set_tombstone_seq _ o0 v).symm
    by_cases hkey : kg.1 = gid
    · have hkg2 : kg = (gid, { g with tombstone := v }) := mem_amSet_key hK hkg hkey
      subst hkg2
      have hqg : q ∈ g.seqs := hq
      rw [if_pos (hseq0 ▸ hqg)]
    · have hold : kg ∈ s.groups := by
        rcases mem_amSet hkg with h1 | h1
        · exact absurd (by rw [h1]) hkey
        · exact h1
      by_cases hmem : o0.seq ∈ g.seqs
      · exfalso
        have h1 : o0.data.groupId = gid := hW (gid, g) hgmem o0.seq hmem o0 ho0 rfl
        have h2 : o0.data.groupId = kg.1 := hW kg hold q hq o0 ho0 hseq0
        exact hkey (by rw [← h2, h1])
      · rw [if_neg hmem]
        exact hA kg hold q hq o0 ho0 hseq0
  · show ((setOpsTombstone s.ops g.seqs v).map Op.seq).Chain' (· < ·)
    rw [setOpsTombstone_map_seq]
    exact hS
  · intro o ho
    have ho2 : o ∈ setOpsTombstone s.ops g.seqs v := ho
    rw [hops] at ho2
    obtain ⟨o0, ho0, rfl⟩ := List.mem_map.mp ho2
    obtain ⟨h1, h2⟩ := hO o0 ho0
    refine ⟨?_, ?_⟩
    · show (if o0.seq ∈ g.seqs then ({ o0 with tombstone := v } : Op) else o0).seq ≤ s.seq
      rw [ite_set_tombstone_seq]
      exact h1
    · show (if o0.seq ∈ g.seqs then ({ o0 with tombstone := v } : Op) else o0).id < s.uuid
      rw [ite_set_tombstone_id]
      exact h2
  · intro kg hkg q hq
    show q ≤ s.seq
    rcases mem_amSet hkg with rfl | hold
    · exact hG (gid, g) hgmem q hq
    · exact hG kg hold q hq
  · intro kg hkg q hq o ho hs
    have ho2 : o ∈ setOpsTombstone s.ops g.seqs v := ho
    rw [hops] at ho2
    obtain ⟨o0, ho0, rfl⟩ := List.mem_map.mp ho2
    have hseq0 : o0.seq = q := by
      rw [← hs]
      exact (ite_set_tombstone_seq _ o0 v).symm
    rw [ite_set_tombstone_data]
    rcases mem_amSet hkg with rfl | hold
    · exact hW (gid, g) hgmem q hq o0 ho0 hseq0
    · exact hW kg hold q hq o0 ho0 hseq0
  · show ((amSet s.groups gid ({ g with tombstone := v })).map Prod.fst).Nodup
    exact keysNodup_amSet _ hK

theorem inv_performUndo {s : ServerState} (hInv : Inv s) : Inv (performUndo s).2 := by
  cases hf : findUndo s.groups s.undoStack with
  | none =>
      have he : (performUndo s).2 = { s with undoStack := [] } := by
        simp [performUndo, hf]
      rw [he]
      exact inv_of_core hInv rfl rfl rfl rfl
  | some p =>
      obtain ⟨gid, rest⟩ := p
      obtain ⟨g, hmg, hgt⟩ := findUndo_eq_some hf
      have he : (performUndo s).2 =
          { (setGroupTombstone s gid true).2 with
              undoStack := rest,
              redoStack := gid :: (setGroupTombstone s gid true).2.redoStack } := by
        rw [performUndo, hf]
      rw [he]
      exact inv_of_core (inv_setGroupTombstone hInv true hmg) rfl rfl rfl rfl

theorem inv_performRedo {s : ServerState} (hInv : Inv s) : Inv (performRedo s).2 := by
  cases hf : findRedo s.groups s.redoStack with
  | none =>
      have he : (performRedo s).2 = { s with redoStack := [] } := by
        simp [performRedo, hf]
      rw [he]
      exact inv_of_core hInv rfl rfl rfl rfl
  | some p =>
      obtain ⟨gid, rest⟩ := p
      obtain ⟨g, hmg, hgt⟩ := findRedo_eq_some hf
      have he : (performRedo s).2 =
          { (setGroupTombstone s gid false).2 with
              redoStack := rest,
              undoStack := gid :: (setGroupTombstone s gid false).2.undoStack } := by
        rw [performRedo, hf]
      rw [he]
      exact inv_of_core (inv_setGroupTombstone hInv false hmg) rfl rfl rfl rfl

theorem addOp_clearAll_groups (s : ServerState) (d : OpData) :
    (addOp s .systemClearAll d).2.groups = s.groups := by
  simp [addOp, Kind.endsWithStart, Kind.endsWithPoint, Kind.endsWithEnd, Kind.isClearAll]

theorem finalizeClear_snd (s : ServerState) :
    (finalizeClear s).2 =
      { (addOp s .systemClearAll clearAllData).2 with
          groups := (addOp s .systemClearAll clearAllData).2.groups.map
            (fun kg => (kg.1, { kg.2 with tombstone := true })),
          ops := (addOp s .systemClearAll clearAllData).2.ops.map
            (fun o => if o.id ≠ (addOp s .systemClearAll clearAllData).1.id
              then { o with tombstone := true } else o) } := rfl

theorem inv_finalizeClear {s : ServerState} (hInv : Inv s) : Inv (finalizeClear s).2 := by
  have h1 : Inv (addOp s .systemClearAll clearAllData).2 :=
    inv_addOp hInv .systemClearAll clearAllData
      (by intro g hmg hpe; simp [Kind.endsWithPoint, Kind.endsWithEnd] at hpe)
  obtain ⟨hc_ops, hc_seq, hc_uuid⟩ := addOp_core s .systemClearAll clearAllData
  have hgroups1 : (addOp s .systemClearAll clearAllData).2.groups = s.groups :=
    addOp_clearAll_groups s clearAllData
  have hsysid : (addOp s .systemClearAll clearAllData).1.id = s.uuid := by
    rw [addOp_fst]
    rfl
  have hsysseq : (addOp s .systemClearAll clearAllData).1.seq = s.seq + 1 := by
    rw [addOp_fst]
    rfl
  rw [finalizeClear_snd]
  refine ⟨?_, ?_, ?_, ?_, ?_, ?_⟩
  · intro kg hkg q hq o ho hs
    obtain ⟨kg0, hkg0, rfl⟩ := List.mem_map.mp hkg
    obtain ⟨o0, ho0, rfl⟩ := List.mem_map.mp ho
    show (if o0.id ≠ (addOp s .systemClearAll clearAllData).1.id
        then ({ o0 with tombstone := true } : Op) else o0).tombstone = true
    by_cases hid : o0.id = (addOp s .systemClearAll clearAllData).1.id
    · exfalso
      have ho0b : o0 ∈ s.ops ++ [addOpNew s .systemClearAll clearAllData] := hc_ops ▸ ho0
      rcases List.mem_append.mp ho0b with hoo | hoo
      · have := (hInv.hOps o0 hoo).2
        rw [hsysid] at hid
        omega
      · have hq0 : q ∈ kg0.2.seqs := hq
        have hb : q ≤ s.seq := hInv.hGrp kg0 (hgroups1 ▸ hkg0) q hq0
        have hsq : o0.seq = q := by
          rw [← hs]
          exact (ite_set_tombstone_seq _ o0 true).symm
        obtain rfl : o0 = addOpNew s .systemClearAll clearAllData := by simpa using hoo
        simp [addOpNew] at hsq
        omega
    · simp [hid]
  · show (((addOp s .systemClearAll clearAllData).2.ops.map
        (fun o => if o.id ≠ (addOp s .systemClearAll clearAllData).1.id
          then { o with tombstone := true } else o)).map Op.seq).Chain' (· < ·)
    have he : ((addOp s .systemClearAll clearAllData).2.ops.map
        (fun o => if o.id ≠ (addOp s .systemClearAll clearAllData).1.id
          then ({ o with tombstone := true } : Op) else o)).map Op.seq
        = (addOp s .systemClearAll clearAllData).2.ops.map Op.seq := by
      rw [List.map_map]
      exact List.map_congr_left (fun o _ => ite_set_tombstone_seq _ o true)
    rw [he]
    exact h1.hSeq
  · intro o ho
    obtain ⟨o0, ho0, rfl⟩ := List.mem_map.mp ho
    obtain ⟨hb1, hb2⟩ := h1.hOps o0 ho0
    constructor
    · rw [ite_set_tombstone_seq]
      exact hb1
    · rw [ite_set_tombstone_id]
      exact hb2
  · intro kg hkg q hq
    obtain ⟨kg0, hkg0, rfl⟩ := List.mem_map.mp hkg
    exact h1.hGrp kg0 hkg0 q hq
  · intro kg hkg q hq o ho hs
    obtain ⟨kg0, hkg0, rfl⟩ := List.mem_map.mp hkg
    obtain ⟨o0, ho0, rfl⟩ := List.mem_map.mp ho
    have hsq : o0.seq = q := by
      rw [← hs]
      exact (ite_set_tombstone_seq _ o0 true).symm
    show (if o0.id ≠ (addOp s .systemClearAll clearAllData).1.id
        then ({ o0 with tombstone := true } : Op) else o0).data.groupId = kg0.1
    rw [ite_set_tombstone_data]
    exact h1.hOwn kg0 hkg0 q hq o0 ho0 hsq
  · show (((addOp s .systemClearAll clearAllData).2.groups.map
        (fun kg => (kg.1, ({ kg.2 with tombstone := true } : Group)))).map Prod.fst).Nodup
    have he : ((addOp s .systemClearAll clearAllData).2.groups.map
        (fun kg => (kg.1, ({ kg.2 with tombstone := true } : Group)))).map Prod.fst
        = (addOp s .systemClearAll clearAllData).2.groups.map Prod.fst := by
      rw [List.map_map]
      exact List.map_congr_left (fun kg _ => rfl)
    rw [he]
    exact h1.hKeys

theorem inv_sstep {s : ServerState} (hInv : Inv s) (e : SEvent) (hok : okEventB s e = true) :
    Inv (sstep s e) := by
  cases e with
  | append k d =>
      refine inv_addOp hInv k d ?_
      intro g hmg hpe
      rw [okEventB] at hok
      rw [hpe] at hok
      simp only [if_true] at hok
      rw [hmg] at hok
      simpa using hok
  | undo => exact inv_performUndo hInv
  | redo => exact inv_performRedo hInv
  | clearAll => exact inv_finalizeClear hInv

theorem inv_server0 : Inv server0 := by
  refine ⟨?_, ?_, ?_, ?_, ?_, ?_⟩ <;>
    simp [aligned, seqLT, opsBound, grpBound, opOwner, keysNodup, server0]

theorem inv_runFrom : ∀ (evs : List SEvent) (s : ServerState), Inv s →
    goodTraceB s evs = true → Inv (evs.foldl sstep s) := by
  intro evs
  induction evs with
  | nil =>
      intro s hInv _
      simpa using hInv
  | cons e rest ih =>
      intro s hInv hg
      rw [show goodTraceB s (e :: rest) = (okEventB s e && goodTraceB (sstep s e) rest) from rfl,
        Bool.and_eq_true] at hg
      obtain ⟨h1, h2⟩ := hg
      rw [List.foldl_cons]
      exact ih (sstep s e) (inv_sstep hInv e h1) h2

/-! ## Further helper lemmas for the claims -/

theorem seqLT_addOps : ∀ (calls : List (Kind × OpData)) (s : ServerState),
    seqLT s → (∀ o ∈ s.ops, o.seq ≤ s.seq) →
    seqLT (addOps s calls) ∧ ∀ o ∈ (addOps s calls).ops, o.seq ≤ (addOps s calls).seq := by
  intro calls
  induction calls with
  | nil =>
      intro s h1 h2
      exact ⟨h1, h2⟩
  | cons c rest ih =>
      intro s h1 h2
      have hstep1 : seqLT (addOp s c.1 c.2).2 := by
        unfold seqLT
        rw [(addOp_core s c.1 c.2).1, List.map_append]
        have hone : [addOpNew s c.1 c.2].map Op.seq = [s.seq + 1] := by simp [addOpNew]
        rw [hone]
        refine chainLT_append_singleton h1 ?_
        intro x hx
        obtain ⟨o, ho, rfl⟩ := List.mem_map.mp hx
        have := h2 o ho
        omega
      have hstep2 : ∀ o ∈ (addOp s c.1 c.2).2.ops, o.seq ≤ (addOp s c.1 c.2).2.seq := by
        intro o ho
        rw [(addOp_core s c.1 c.2).1] at ho
        rw [(addOp_core s c.1 c.2).2.1]
        rcases List.mem_append.mp ho with h | h
        · have := h2 o h
          omega
        · obtain rfl : o = addOpNew s c.1 c.2 := by simpa using h
          simp [addOpNew]
      exact ih _ hstep1 hstep2

theorem finalizeClear_undoStack (s : ServerState) : (finalizeClear s).2.undoStack = [] := by
  rw [finalizeClear_snd]
  show (addOp s .systemClearAll clearAllData).2.undoStack = []
  simp [addOp, Kind.endsWithStart, Kind.endsWithPoint, Kind.endsWithEnd, Kind.isClearAll]

theorem finalizeClear_redoStack (s : ServerState) : (finalizeClear s).2.redoStack = [] := by
  rw [finalizeClear_snd]
  show (addOp s .systemClearAll clearAllData).2.redoStack = []
  simp [addOp, Kind.endsWithStart, Kind.endsWithPoint, Kind.endsWithEnd, Kind.isClearAll]

theorem replayRender_append (log : List Op) (op : Op) (h : op.tombstone = false) :
    replayRender (log ++ [op]) = applyOpToContext (replayRender log) op := by
  rw [replayRender, List.foldl_append]
  show replayStep (replayRender log) op = _
  simp [replayStep, h]

theorem performUndo_none_of_empty {s : ServerState} (h : s.undoStack = []) :
    (performUndo s).1 = none := by
  rw [performUndo, h]
  rfl

theorem stacks_empty_sstep {s : ServerState} (h1 : s.undoStack = []) (h2 : s.redoStack = [])
    {e : SEvent} (he : e.endsStroke = false) :
    (sstep s e).undoStack = [] ∧ (sstep s e).redoStack = [] := by
  cases e with
  | append k d =>
      have hke : k.endsWithEnd = false := he
      cases k <;> cases hmg : amGet s.groups d.groupId <;>
        simp_all [sstep, addOp, Kind.endsWithStart, Kind.endsWithPoint, Kind.endsWithEnd,
          Kind.isClearAll]
  | undo =>
      cases hf : findUndo s.groups s.undoStack with
      | none =>
          show ((performUndo s).2.undoStack = []) ∧ ((performUndo s).2.redoStack = [])
          rw [performUndo, hf]
          exact ⟨rfl, h2⟩
      | some p =>
          exfalso
          rw [h1] at hf
          simp [findUndo] at hf
  | redo =>
      cases hf : findRedo s.groups s.redoStack with
      | none =>
          show ((performRedo s).2.undoStack = []) ∧ ((performRedo s).2.redoStack = [])
          rw [performRedo, hf]
          exact ⟨h1, rfl⟩
      | some p =>
          exfalso
          rw [h2] at hf
          simp [findRedo] at hf
  | clearAll =>
      exact ⟨finalizeClear_undoStack s, finalizeClear_redoStack s⟩

theorem stacks_empty_runFrom : ∀ (evs : List SEvent) (s : ServerState),
    s.undoStack = [] → s.redoStack = [] → (∀ e ∈ evs, e.endsStroke = false) →
    (evs.foldl sstep s).undoStack = [] ∧ (evs.foldl sstep s).redoStack = [] := by
  intro evs
  induction evs with
  | nil =>
      intro s h1 h2 _
      exact ⟨h1, h2⟩
  | cons e rest ih =>
      intro s h1 h2 hall
      obtain ⟨g1, g2⟩ := stacks_empty_sstep h1 h2 (hall e (by simp))
      rw [List.foldl_cons]
      exact ih (sstep s e) g1 g2 (fun x hx => hall x (by simp [hx]))

/-! ## The claims -/

/-- C1, counterexample: tombstone alignment between groups and member
operations is not an invariant of all reachable states. After the trace
start, end, undo, late point for the same group 5, the group record is
tombstoned while its freshly appended member operation (sequence 3) is
not. -/
theorem C1_counterexample : ¬ aligned (runServer traceC1) := by
  intro h
  have hm : ((some 5 : Option Nat),
      ({ kind := .strokeStart, owner := 1, seqs := [1, 2, 3], tombstone := true } : Group))
      ∈ (runServer traceC1).groups := by decide
  have ho : ({ seq := 3, id := 2, kind := .strokePoint, data := dG, tombstone := false } : Op)
      ∈ (runServer traceC1).ops := by decide
  have hbad := h _ hm 3 (by decide) _ ho rfl
  simp at hbad

/-- C1, amended: along every trace of server operations in which each
point or end operation targets a group that is currently missing or not
tombstoned (okEventB), every reachable state keeps each group tombstone
equal to the tombstone of every member operation. The unrestricted claim
fails when a point arrives for an already-undone or cleared group. -/
theorem C1_amended_alignment (evs : List SEvent) (h : goodTraceB server0 evs = true) :
    aligned (runServer evs) :=
  (inv_runFrom evs server0 inv_server0 h).hAligned

/-- Witness for the amended C1 at the concrete trace start, point, end,
undo. -/
theorem C1_amended_alignment_witness :
    goodTraceB server0 traceOk = true ∧ aligned (runServer traceOk) :=
  ⟨by decide, C1_amended_alignment traceOk (by decide)⟩

/-- C2: for every sequence of calls to the append function from the
initial state, the server-assigned sequence numbers are strictly
increasing in append order and pairwise unique across the whole log. -/
theorem C2_seq_strictly_increasing_unique (calls : List (Kind × OpData)) :
    ((addOps server0 calls).ops.map Op.seq).Chain' (· < ·) ∧
    ((addOps server0 calls).ops.map Op.seq).Nodup := by
  have h := seqLT_addOps calls server0 (by simp [seqLT, server0]) (by simp [server0])
  exact ⟨h.1, seqLT_nodup h.1⟩

/-- C6: after finalizeClear, every previously logged operation is
tombstoned, the appended clear marker is not, every group is tombstoned,
an immediately following undo reports nothing to undo, and undo stays a
no-op along any further events until a stroke is completed (an end-kind
append, the only event that refills the undo stack). The hypothesis is
the uuid-counter freshness bound, an invariant of every reachable state. -/
theorem C6_clear_all_finalize (s : ServerState) (hid : ∀ o ∈ s.ops, o.id < s.uuid) :
    (finalizeClear s).2.ops
        = s.ops.map (fun o => { o with tombstone := true }) ++ [(finalizeClear s).1] ∧
    (finalizeClear s).1.tombstone = false ∧
    (∀ kg ∈ (finalizeClear s).2.groups, kg.2.tombstone = true) ∧
    (performUndo (finalizeClear s).2).1 = none ∧
    (∀ evs : List SEvent, (∀ e ∈ evs, e.endsStroke = false) →
      (performUndo (evs.foldl sstep (finalizeClear s).2)).1 = none) := by
  have hsysid : (addOp s .systemClearAll clearAllData).1.id = s.uuid := by
    rw [addOp_fst]
    rfl
  refine ⟨?_, ?_, ?_, ?_, ?_⟩
  · show ((addOp s .systemClearAll clearAllData).2.ops.map
        (fun o => if o.id ≠ (addOp s .systemClearAll clearAllData).1.id
          then ({ o with tombstone := true } : Op) else o))
      = s.ops.map (fun o => { o with tombstone := true })
          ++ [(addOp s .systemClearAll clearAllData).1]
    rw [(addOp_core s .systemClearAll clearAllData).1, addOp_fst, List.map_append]
    have h1 : [addOpNew s .systemClearAll clearAllData].map
        (fun o => if o.id ≠ (addOpNew s .systemClearAll clearAllData).id
          then ({ o with tombstone := true } : Op) else o)
        = [addOpNew s .systemClearAll clearAllData] := by
      simp
    rw [h1]
    have h2 : s.ops.map
        (fun o => if o.id ≠ (addOpNew s .systemClearAll clearAllData).id
          then ({ o with tombstone := true } : Op) else o)
        = s.ops.map (fun o => { o with tombstone := true }) := by
      refine List.map_congr_left ?_
      intro o ho
      have hlt : o.id < s.uuid := hid o ho
      have hne : o.id ≠ (addOpNew s .systemClearAll clearAllData).id := by
        show o.id ≠ s.uuid
        omega
      simp [hne]
    rw [h2]
  · show (addOp s .systemClearAll clearAllData).1.tombstone = false
    rw [addOp_fst]
    rfl
  · intro kg hkg
    have hkg2 : kg ∈ (addOp s .systemClearAll clearAllData).2.groups.map
        (fun kg => (kg.1, ({ kg.2 with tombstone := true } : Group))) := hkg
    obtain ⟨kg0, _, rfl⟩ := List.mem_map.mp hkg2
    rfl
  · rw [performUndo]
    rw [finalizeClear_undoStack s]
    rfl
  · intro evs hall
    obtain ⟨g1, _⟩ := stacks_empty_runFrom evs (finalizeClear s).2
      (finalizeClear_undoStack s) (finalizeClear_redoStack s) hall
    exact performUndo_none_of_empty g1

/-- Witness for C6 at a state holding one completed stroke; the last
conjunct is instantiated at a follow-up trace holding one stroke start. -/
theorem C6_witness :
    (∀ o ∈ sStroke.ops, o.id < sStroke.uuid) ∧
    (performUndo (finalizeClear sStroke).2).1 = none ∧
    (finalizeClear sStroke).1.tombstone = false ∧
    (performUndo ([SEvent.append .strokeStart dG].foldl sstep (finalizeClear sStroke).2)).1
      = none := by
  refine ⟨by decide, ?_, ?_, ?_⟩
  · exact (C6_clear_all_finalize sStroke (by decide)).2.2.2.1
  · exact (C6_clear_all_finalize sStroke (by decide)).2.1
  · exact (C6_clear_all_finalize sStroke (by decide)).2.2.2.2
      [SEvent.append .strokeStart dG] (by decide)

/-- C7, counterexample: the claim that finalize leaves the stacks with the
same group identities is false. With one completed stroke on the undo
stack, finalizeClear empties it (the system:clear_all branch of addOp
clears both stacks). -/
theorem C7_counterexample :
    sStroke.undoStack = [some 5] ∧
    (finalizeClear sStroke).2.undoStack = [] ∧
    sStroke.undoStack ≠ (finalizeClear sStroke).2.undoStack := by
  refine ⟨?_, ?_, ?_⟩ <;> decide

/-- C7, amended: finalizing a clear-all DOES explicitly clear both stacks:
the system:clear_all branch of addOp empties the undo and redo stacks, so
immediately after finalize both stacks are empty and prior history is
discarded eagerly rather than left for lazy skip-discard. -/
theorem C7_amended_stacks_cleared (s : ServerState) :
    (finalizeClear s).2.undoStack = [] ∧ (finalizeClear s).2.redoStack = [] :=
  ⟨finalizeClear_undoStack s, finalizeClear_redoStack s⟩

/-- C9, counterexample: the second user ever to join does not get
palette[1] when a disconnection happened before they joined: after join 1,
leave 1, join 2, user 2 receives palette[0] because the handler indexes by
the current connected-user count, which dropped back to 0. -/
theorem C9_counterexample :
    amGet (runRoom traceColor).users 2 = some (nextColor 0) ∧
    nextColor 0 ≠ nextColor 1 := by
  constructor <;> decide

/-- C9, amended: a joining user receives palette[(number of currently
connected users at join time) mod palette size]; this equals the join-order
index only while no disconnection has occurred before the join. -/
theorem C9_amended_color (r : RoomState) (uid : Nat) :
    amGet (rstep r (.connect uid)).users uid = some (nextColor r.users.length) := by
  show amGet (amSet r.users uid (nextColor r.users.length)) uid = some (nextColor r.users.length)
  exact amGet_amSet_self r.users uid _

/-- C10: the client:op handler mints a fresh group id and attaches it to
the payload before appending whenever a stroke or erase operation of any
subkind (start, point or end) arrives without one; the appended operation
carries the minted id. -/
theorem C10_mint_group_id (s : ServerState) (k : Kind) (d : OpData)
    (hk : k.isStrokeOrErase = true) (hg : d.groupId = none) :
    (handleClientOp s k d).1.data.groupId = some s.uuid ∧
    (handleClientOp s k d).2.ops = s.ops ++ [(handleClientOp s k d).1] := by
  rw [handleClientOp, if_pos ⟨hk, hg⟩]
  constructor
  · rw [addOp_fst]
    rfl
  · rw [(addOp_core _ k _).1, addOp_fst]

/-- Witness for C10 at a point operation (a non-start subkind) without a
group id. -/
theorem C10_witness :
    (handleClientOp server0 .strokePoint dNoG).1.data.groupId = some 0 ∧
    (handleClientOp server0 .strokePoint dNoG).2.ops
      = server0.ops ++ [(handleClientOp server0 .strokePoint dNoG).1] :=
  C10_mint_group_id server0 .strokePoint dNoG rfl rfl

/-- C3: for a client whose render state agrees with a full replay of its
mirrored log, applying a newly received non-tombstoned plain
point-continuation operation through the incremental fast path of applyOp
yields exactly the state of clearing the surface and fully replaying the
log including that operation: same drawn-command surface and same
per-user caches. -/
theorem C3_incremental_equals_full_replay (c : ClientState) (op : Op)
    (hsync : synced c) (hk : op.kind.endsWithPoint = true) (ht : op.tombstone = false) :
    applyOp c op =
      { opLog := c.opLog ++ [op], render := replayRender (c.opLog ++ [op]) } := by
  have hcond : (op.tombstone || op.kind.isClearAll || op.kind.endsWithEnd) = false := by
    cases hkk : op.kind <;>
      simp_all [Kind.endsWithPoint, Kind.isClearAll, Kind.endsWithEnd]
  rw [replayRender_append c.opLog op ht, ← hsync]
  simp only [applyOp, hcond, Bool.false_eq_true, if_false]

/-- Witness for C3: an empty synced client receiving one point operation. -/
theorem C3_witness :
    applyOp cSync opPt = { opLog := [opPt], render := replayRender [opPt] } :=
  C3_incremental_equals_full_replay cSync opPt rfl rfl rfl

/-- C8: a point operation whose user has no cached last point and no
cached brush draws nothing: applyOpToContext (used by full replay and by
the incremental path alike) leaves the drawn-command surface unchanged and
caches no brush, so no pixels are produced and no guessed brush is ever
rendered with. -/
theorem C8_orphan_point_skipped (st : RenderState) (op : Op)
    (hk : op.kind.endsWithPoint = true)
    (hseg : (amGet st.lastSeg op.data.userId).join = none)
    (hbrush : amGet st.currBrush op.data.userId = none) :
    (applyOpToContext st op).surface = st.surface ∧
    (applyOpToContext st op).currBrush = st.currBrush := by
  have hns : op.kind.endsWithStart = false := by
    cases hkk : op.kind <;> simp_all [Kind.endsWithPoint, Kind.endsWithStart]
  by_cases huid : op.data.userId = 0
  · constructor <;> simp [applyOpToContext, huid]
  · have hseg2 : ((amGet st.lastSeg op.data.userId).bind fun a => a) = none := hseg
    constructor <;>
      simp [applyOpToContext, huid, hns, hk, hseg2, drawSegment]

/-- Witness for C8: a point operation against the empty render state. -/
theorem C8_witness :
    (applyOpToContext emptyRender opPt).surface = emptyRender.surface ∧
    (applyOpToContext emptyRender opPt).currBrush = emptyRender.currBrush :=
  C8_orphan_point_skipped emptyRender opPt rfl rfl rfl

/-- C5, counterexample: after three users connect, user 1 requests a
clear-all vote and disconnects; the vote stays pending with the departed
user 1 still in the yes set, violating that the yes set holds only
connected users. Continuing with a yes from user 3 finalizes the vote even
though the still-connected user 2 never voted: the departed user was
counted toward quorum. -/
theorem C5_counterexample :
    (runRoom traceVote).vote.inProgress = true ∧
    1 ∈ (runRoom traceVote).vote.yes ∧
    amGet (runRoom traceVote).users 1 = none ∧
    (runRoom traceVote2).vote.inProgress = false ∧
    2 ∉ (runRoom traceVote2).vote.yes ∧
    amGet (runRoom traceVote2).users 2 ≠ none := by
  refine ⟨?_, ?_, ?_, ?_, ?_, ?_⟩ <;> decide

/-- C5, amended: on a disconnect while a vote is pending, the required
count is decremented by one, floored at zero (Nat subtraction), and the
finalize condition is re-checked; but the yes set is left unchanged, so a
departed user who voted yes keeps counting toward the quorum. -/
theorem C5_amended_disconnect (r : RoomState) (uid : Nat) (hv : r.vote.inProgress = true) :
    (rstep r (.disconnect uid)).vote.totalAtStart = r.vote.totalAtStart - 1 ∧
    (rstep r (.disconnect uid)).vote.yes = r.vote.yes := by
  simp only [rstep, hv, if_true]
  split
  · exact ⟨rfl, rfl⟩
  · exact ⟨rfl, rfl⟩

/-- Witness for the amended C5: user 3 disconnecting from the pending-vote
state. -/
theorem C5_amended_witness :
    (runRoom traceVote).vote.inProgress = true ∧
    (rstep (runRoom traceVote) (.disconnect 3)).vote.totalAtStart
      = (runRoom traceVote).vote.totalAtStart - 1 ∧
    (rstep (runRoom traceVote) (.disconnect 3)).vote.yes = (runRoom traceVote).vote.yes :=
  ⟨by decide, (C5_amended_disconnect (runRoom traceVote) 3 (by decide)).1,
    (C5_amended_disconnect (runRoom traceVote) 3 (by decide)).2⟩

/-- C4: from any state satisfying the reachable-state invariants, if undo
succeeds on group G then an immediately following redo succeeds on the
same G, restores the group table and the whole log (hence the pre-undo
tombstone false and the rendered pixel state) exactly as before the undo,
pushes G back on the undo stack and restores the redo stack. -/
theorem C4_undo_redo_roundtrip {s : ServerState} (hInv : Inv s) {gid : Option Nat}
    {s1 : ServerState} (h : performUndo s = (some gid, s1)) :
    (performRedo s1).1 = some gid ∧
    (performRedo s1).2.groups = s.groups ∧
    (performRedo s1).2.ops = s.ops ∧
    (performRedo s1).2.undoStack = gid :: s1.undoStack ∧
    (performRedo s1).2.redoStack = s.redoStack ∧
    replayRender (performRedo s1).2.ops = replayRender s.ops := by
  obtain ⟨rest, hf, hs1⟩ := performUndo_eq_some h
  obtain ⟨g, hmg, hgt⟩ := findUndo_eq_some hf
  have hset := setGroupTombstone_eq true hmg
  have hs1groups : s1.groups = amSet s.groups gid ({ g with tombstone := true }) := by
    rw [hs1, hset]
  have hs1ops : s1.ops = setOpsTombstone s.ops g.seqs true := by
    rw [hs1, hset]
  have hs1redo : s1.redoStack = gid :: s.redoStack := by
    rw [hs1, hset]
  have hs1undo : s1.undoStack = rest := by
    rw [hs1]
  have hget1 : amGet s1.groups gid = some ({ g with tombstone := true }) := by
    rw [hs1groups]
    exact amGet_amSet_self s.groups gid _
  have hfr : findRedo s1.groups s1.redoStack = some (gid, s.redoStack) := by
    rw [hs1redo]
    simp [findRedo, hget1]
  have hredo : performRedo s1 = (some gid,
      { (setGroupTombstone s1 gid false).2 with
          redoStack := s.redoStack,
          undoStack := gid :: (setGroupTombstone s1 gid false).2.undoStack }) := by
    rw [performRedo, hfr]
  have hset2 := setGroupTombstone_eq false hget1
  have hgback : ({ ({ g with tombstone := true } : Group) with tombstone := false } : Group)
      = g := by
    obtain ⟨gk, go, gs, gt⟩ := g
    simp only [Group.mk.injEq]
    simpa using hgt.symm
  have hgroups2 : (setGroupTombstone s1 gid false).2.groups = s.groups := by
    rw [hset2]
    show amSet s1.groups gid ({ ({ g with tombstone := true } : Group)
      with tombstone := false }) = s.groups
    rw [hgback, hs1groups, amSet_amSet]
    exact amSet_self hmg
  have hops2 : (setGroupTombstone s1 gid false).2.ops = s.ops := by
    rw [hset2]
    show setOpsTombstone s1.ops ({ g with tombstone := true } : Group).seqs false = s.ops
    have hseqs : ({ g with tombstone := true } : Group).seqs = g.seqs := rfl
    rw [hseqs, hs1ops]
    refine setOpsTombstone_true_false (seqLT_nodup hInv.hSeq) ?_
    intro o ho hq
    rw [hInv.hAligned (gid, g) (amGet_eq_some_mem hmg) o.seq hq o ho rfl]
    exact hgt
  have hundo2 : (setGroupTombstone s1 gid false).2.undoStack = s1.undoStack := by
    rw [hset2]
  refine ⟨?_, ?_, ?_, ?_, ?_, ?_⟩
  · rw [hredo]
  · rw [hredo]
    exact hgroups2
  · rw [hredo]
    exact hops2
  · rw [hredo]
    show gid :: (setGroupTombstone s1 gid false).2.undoStack = gid :: s1.undoStack
    rw [hundo2]
  · rw [hredo]
  · rw [hredo]
    show replayRender (setGroupTombstone s1 gid false).2.ops = replayRender s.ops
    rw [hops2]

/-- Witness for C4 at a state holding one completed stroke: undo then redo
on group 5 restores the log. -/
theorem C4_witness :
    (performRedo (performUndo sStroke).2).1 = some (some 5) ∧
    (performRedo (performUndo sStroke).2).2.ops = sStroke.ops := by
  have hInv : Inv sStroke :=
    inv_runFrom [.append .strokeStart dG, .append .strokeEnd dG] server0 inv_server0 (by decide)
  have h := @C4_undo_redo_roundtrip sStroke hInv (some 5) ((performUndo sStroke).2) (by decide)
  exact ⟨h.1, h.2.2.1⟩

end CollabCanvas
